import Mathlib

/-!
Verification of the matrix-to-LaTeX formatting utility of the
qiskit-textbook notebook `content/ch-gates/quantum-gates.ipynb`
(the cell that builds the string `gate_latex`).

The Python source being embedded is:

  gate_latex = "\\begin{pmatrix}"
  for line in gate:
      for element in line:
          gate_latex += str(element) + "&"
      gate_latex  = gate_latex[0:-1]
      gate_latex +=  "\\\\"
  gate_latex  = gate_latex[0:-2]
  gate_latex += "\end{pmatrix}"

(the notebook uses single-quoted Python literals; they are shown here
double-quoted, which is the same Python string.)

After Python escape processing the three literals are the character
sequences `\begin{pmatrix}` , `\\` (two backslashes) and `\end{pmatrix}`.
Strings are modelled as `List Char`; Python `s[0:-1]` is `List.dropLast`
and `s[0:-2]` is `List.dropLast` applied twice (both agree with the Python
slicing on strings shorter than the amount removed).
-/

/-- The fixed opening marker appended first by the source:
the 15 characters of the Python literal that escape-processes to
backslash-begin-brace-pmatrix-brace. -/
def beginPmatrix : List Char := ("\\begin{pmatrix}").data

/-- The fixed closing marker appended last by the source:
the 13 characters of the Python literal that escape-processes to
backslash-end-brace-pmatrix-brace. -/
def endPmatrix : List Char := ("\\end{pmatrix}").data

/-- The column delimiter appended by the source after each element. -/
def colDelim : List Char := ['&']

/-- The row delimiter appended by the source after each row:
two backslash characters (Python literal with four backslashes). -/
def rowDelim : List Char := ['\\', '\\']

/-- One iteration of the outer `for line in gate` loop of the source:
append the rendered element and a `&` for every element of the line, drop the last
character (`gate_latex[0:-1]`), then append the two-backslash row
delimiter. -/
def lineStep (render : α → List Char) (acc : List Char) (line : List α) :
    List Char :=
  (line.foldl (fun a e => a ++ render e ++ ['&']) acc).dropLast ++
    ['\\', '\\']

/-- The whole source snippet: start from the opening marker, run the
outer loop over all rows, drop the last two characters
(`gate_latex[0:-2]`), and append the closing marker. -/
def gate_latex (render : α → List Char) (gate : List (List α)) : List Char :=
  ((gate.foldl (lineStep render) beginPmatrix).dropLast).dropLast ++
    endPmatrix

/-!
The entries of the matrix in the source are numpy complex numbers and are
rendered by the Python `str` builtin.  That renderer is external-library code, not
part of this repository.
-/

/-- Decimal digits of a natural number, with explicit structural fuel so
that the definition reduces in the kernel.  The fuel `n + 1` always
suffices since `n / 10 < n` for `n ≥ 10`. -/
def natReprAux : Nat → Nat → List Char
  | 0, _ => []
  | fuel + 1, n =>
    if n < 10 then [Nat.digitChar n]
    else natReprAux fuel (n / 10) ++ [Nat.digitChar (n % 10)]

/-- Decimal rendering of a natural number (Python `str` on a
nonnegative int). -/
def natRepr (n : Nat) : List Char := natReprAux (n + 1) n

/-- Python `str` of an integer: a minus sign followed by the digits for
negative inputs, just the digits otherwise. -/
def intRepr (i : Int) : List Char :=
  if i < 0 then '-' :: natRepr i.natAbs else natRepr i.natAbs

/-- The imaginary part as it appears inside the parenthesised form of
the Python complex `str`: negative values carry their own minus sign,
nonnegative values get an explicit plus sign. -/
def signedIntRepr (i : Int) : List Char :=
  if i < 0 then intRepr i else '+' :: intRepr i

/-- A complex value of the matrix, modelled by its real and imaginary
parts.  The matrices of the snippet and of the examples of the spec have
integral entries, so the parts are integers. -/
abbrev PyComplex := Int × Int

/-- Modelled from the spec: the complex-number-to-string conversion that
the source delegates to the `str` of the external library (the spec leaves the
convention to "a standard numeric-to-string routine" and records the
`(1+0j)`-style form).  For a zero real part Python renders just the
imaginary part followed by `j`; otherwise it renders
`(re±imj)`.  This matches the recorded output of the notebook, which shows
`0j`, `(1+0j)` and `(-1+0j)`. -/
def pyComplexStr (z : PyComplex) : List Char :=
  if z.1 = 0 then intRepr z.2 ++ ['j']
  else '(' :: (intRepr z.1 ++ signedIntRepr z.2 ++ ['j', ')'])

/-- A matrix of complex values: an ordered sequence of rows. -/
abbrev ComplexMatrix := List (List PyComplex)

/-!
Parsing the output back, as described by the result guarantee of the spec:
strip the fixed opening and closing markers, split on the row delimiter,
then split each piece on the column delimiter.  `joinWith` is the
intervening-separator concatenation the loop effectively produces, and
`splitOnRow` / `splitOnCol` are the standard splits on the two delimiter
tokens (these two formalise the parse-back procedure of the spec).
-/

/-- Concatenation of pieces with a separator between consecutive
pieces. -/
def joinWith (sep : List Char) : List (List Char) → List Char
  | [] => []
  | [r] => r
  | r :: s :: rest => r ++ sep ++ joinWith sep (s :: rest)

/-- Split on a single-character separator, with an accumulator for the
current piece (kept reversed). -/
def splitOneBack (c : Char) : List Char → List Char → List (List Char)
  | acc, [] => [acc.reverse]
  | acc, d :: rest =>
    if d = c then acc.reverse :: splitOneBack c [] rest
    else splitOneBack c (d :: acc) rest

/-- Split a rendered row on the column delimiter. -/
def splitOnCol (l : List Char) : List (List Char) := splitOneBack '&' [] l

/-- Split on the two-character row delimiter (two backslashes), with an
accumulator for the current piece (kept reversed). -/
def splitTwoBack : List Char → List Char → List (List Char)
  | acc, [] => [acc.reverse]
  | acc, [c] => [(c :: acc).reverse]
  | acc, c1 :: c2 :: rest =>
    if c1 = '\\' ∧ c2 = '\\' then acc.reverse :: splitTwoBack [] rest
    else splitTwoBack (c1 :: acc) (c2 :: rest)

/-- Split a formatted body on the row delimiter. -/
def splitOnRow (l : List Char) : List (List Char) := splitTwoBack [] l

/-- The number of occurrences of the row delimiter in a string: one less
than the number of pieces it splits into. -/
def rowDelimCount (l : List Char) : Nat := (splitOnRow l).length - 1

/-- The number of occurrences of the column delimiter in a string: one
less than the number of pieces it splits into. -/
def colDelimCount (l : List Char) : Nat := (splitOnCol l).length - 1

/-- The `&`-joined rendering of one row of the matrix. -/
def rowString (render : α → List Char) (row : List α) : List Char :=
  joinWith colDelim (row.map render)

/-- The delimited body of the output for a matrix: rows rendered with the
column delimiter, joined by the row delimiter. -/
def renderedBody (render : α → List Char) (gate : List (List α)) :
    List Char :=
  joinWith rowDelim (gate.map (rowString render))

/-- Chunk form of the inner loop: each element rendered, each followed by
the column delimiter character. -/
def ampChunks (render : α → List Char) : List α → List Char
  | [] => []
  | e :: rest => render e ++ '&' :: ampChunks render rest

/-- Chunk form of the outer loop: each row rendered (inner trim already
applied), each followed by the two row delimiter characters. -/
def rowChunks (render : α → List Char) : List (List α) → List Char
  | [] => []
  | row :: rest =>
      rowString render row ++ '\\' :: '\\' :: rowChunks render rest

/-- The output on a pre-rendered matrix, with entries already strings. -/
def gateLatexRendered (rows : List (List (List Char))) : List Char :=
  ((rows.foldl (lineStep id) beginPmatrix).dropLast).dropLast ++ endPmatrix

/-- The 4-by-4 matrix the notebook displays: the tensor product of the Z
matrix and the X matrix, with entries 0, 1 and -1 (imaginary parts 0). -/
def zxMatrix : ComplexMatrix :=
  [[(0, 0), (1, 0), (0, 0), (0, 0)],
   [(1, 0), (0, 0), (0, 0), (0, 0)],
   [(0, 0), (0, 0), (0, 0), (-1, 0)],
   [(0, 0), (0, 0), (-1, 0), (0, 0)]]

/-- The inner loop accumulates the element chunks after the incoming
accumulator. -/
theorem foldl_amp (render : α → List Char) (line : List α) :
    ∀ acc : List Char,
      line.foldl (fun a e => a ++ render e ++ ['&']) acc =
        acc ++ ampChunks render line := by
  induction line with
  | nil => intro acc; simp [ampChunks]
  | cons e rest ih =>
      intro acc
      rw [List.foldl_cons, ih]
      simp [ampChunks, List.append_assoc]

/-- For a nonempty line the chunks are the delimiter-joined renderings
followed by one trailing column delimiter. -/
theorem ampChunks_eq (render : α → List Char) :
    ∀ line : List α, line ≠ [] →
      ampChunks render line = rowString render line ++ ['&'] := by
  intro line
  induction line with
  | nil => intro h; exact absurd rfl h
  | cons e rest ih =>
      intro _
      cases rest with
      | nil => simp [ampChunks, rowString, joinWith]
      | cons f rest2 =>
          rw [show ampChunks render (e :: f :: rest2) =
                render e ++ '&' :: ampChunks render (f :: rest2) from rfl,
            ih (List.cons_ne_nil f rest2)]
          simp [rowString, joinWith, colDelim, List.append_assoc]

/-- One outer-loop iteration on a nonempty line appends the joined row
rendering and the row delimiter: the trim removes exactly the trailing
column delimiter. -/
theorem lineStep_eq (render : α → List Char) (acc : List Char)
    (line : List α) (h : line ≠ []) :
    lineStep render acc line = acc ++ rowString render line ++ rowDelim := by
  unfold lineStep
  rw [foldl_amp, ampChunks_eq render line h, ← List.append_assoc]
  rw [List.dropLast_concat]
  simp [rowDelim, List.append_assoc]

/-- The outer loop accumulates the row chunks after the incoming
accumulator, provided every row is nonempty. -/
theorem foldl_rows (render : α → List Char) (gate : List (List α))
    (h : ∀ row ∈ gate, row ≠ []) :
    ∀ acc : List Char,
      gate.foldl (lineStep render) acc = acc ++ rowChunks render gate := by
  induction gate with
  | nil => intro acc; simp [rowChunks]
  | cons row rest ih =>
      intro acc
      rw [List.foldl_cons,
        lineStep_eq render acc row (h row (List.mem_cons_self row rest)),
        ih (fun r hr => h r (List.mem_cons_of_mem row hr))]
      simp [rowChunks, rowDelim, List.append_assoc]

/-- For a nonempty matrix the row chunks are the delimiter-joined row
renderings followed by one trailing row delimiter. -/
theorem rowChunks_eq (render : α → List Char) :
    ∀ gate : List (List α), gate ≠ [] →
      rowChunks render gate = renderedBody render gate ++ ['\\', '\\'] := by
  intro gate
  induction gate with
  | nil => intro h; exact absurd rfl h
  | cons row rest ih =>
      intro _
      cases rest with
      | nil => simp [rowChunks, renderedBody, joinWith]
      | cons row2 rest2 =>
          rw [show rowChunks render (row :: row2 :: rest2) =
                rowString render row ++ '\\' :: '\\' ::
                  rowChunks render (row2 :: rest2) from rfl,
            ih (List.cons_ne_nil row2 rest2)]
          simp [renderedBody, joinWith, rowDelim, List.append_assoc]

/-- Structure of the output on a matrix with at least one row, all rows
nonempty: opening marker, then the delimited body, then the closing
marker (the final trim removes exactly the trailing row delimiter). -/
theorem gateLatexStructure (render : α → List Char) (gate : List (List α))
    (h1 : gate ≠ []) (h2 : ∀ row ∈ gate, row ≠ []) :
    gate_latex render gate =
      beginPmatrix ++ renderedBody render gate ++ endPmatrix := by
  unfold gate_latex
  rw [foldl_rows render gate h2, rowChunks_eq render gate h1]
  rw [show (['\\', '\\'] : List Char) = ['\\'] ++ ['\\'] from rfl]
  rw [← List.append_assoc, ← List.append_assoc]
  rw [List.dropLast_concat, List.dropLast_concat, List.append_assoc]

/-- A piece free of the separator character passes through the split
unsplit. -/
theorem splitOneBack_free (c : Char) (piece : List Char) (hp : c ∉ piece) :
    ∀ acc : List Char, splitOneBack c acc piece = [acc.reverse ++ piece] := by
  induction piece with
  | nil => intro acc; simp [splitOneBack]
  | cons d rest ih =>
      intro acc
      have hd : d ≠ c := fun h => hp (h ▸ List.mem_cons_self d rest)
      rw [show splitOneBack c acc (d :: rest) =
            if d = c then acc.reverse :: splitOneBack c [] rest
            else splitOneBack c (d :: acc) rest from rfl,
        if_neg hd, ih (fun h => hp (List.mem_cons_of_mem d h))]
      simp

/-- Splitting cuts exactly at a separator that follows a separator-free
piece. -/
theorem splitOneBack_sep (c : Char) (piece : List Char) (hp : c ∉ piece) :
    ∀ rest acc : List Char,
      splitOneBack c acc (piece ++ c :: rest) =
        (acc.reverse ++ piece) :: splitOneBack c [] rest := by
  induction piece with
  | nil =>
      intro rest acc
      rw [show ([] : List Char) ++ c :: rest = c :: rest from rfl,
        show splitOneBack c acc (c :: rest) =
          if c = c then acc.reverse :: splitOneBack c [] rest
          else splitOneBack c (c :: acc) rest from rfl,
        if_pos rfl]
      simp
  | cons d p2 ih =>
      intro rest acc
      have hd : d ≠ c := fun h => hp (h ▸ List.mem_cons_self d p2)
      rw [show (d :: p2) ++ c :: rest = d :: (p2 ++ c :: rest) from rfl,
        show splitOneBack c acc (d :: (p2 ++ c :: rest)) =
          if d = c then acc.reverse :: splitOneBack c [] (p2 ++ c :: rest)
          else splitOneBack c (d :: acc) (p2 ++ c :: rest) from rfl,
        if_neg hd, ih (fun h => hp (List.mem_cons_of_mem d h)) rest (d :: acc)]
      simp

/-- Splitting on the column delimiter inverts joining with it, for
nonempty piece lists whose pieces are free of the delimiter. -/
theorem splitOnCol_joinWith :
    ∀ parts : List (List Char), parts ≠ [] → (∀ p ∈ parts, '&' ∉ p) →
      splitOnCol (joinWith colDelim parts) = parts := by
  intro parts
  induction parts with
  | nil => intro h; exact absurd rfl h
  | cons p rest ih =>
      intro _ hfree
      cases rest with
      | nil =>
          rw [show joinWith colDelim [p] = p from rfl]
          unfold splitOnCol
          rw [splitOneBack_free '&' p (hfree p (List.mem_cons_self p [])) []]
          simp
      | cons q rest2 =>
          have hjoin : joinWith colDelim (p :: q :: rest2) =
              p ++ '&' :: joinWith colDelim (q :: rest2) := by
            rw [show joinWith colDelim (p :: q :: rest2) =
                  p ++ colDelim ++ joinWith colDelim (q :: rest2) from rfl,
              List.append_assoc]
            rfl
          rw [hjoin]
          unfold splitOnCol
          rw [splitOneBack_sep '&' p (hfree p (List.mem_cons_self p _))
            (joinWith colDelim (q :: rest2)) []]
          rw [show splitOneBack '&' [] (joinWith colDelim (q :: rest2)) =
            splitOnCol (joinWith colDelim (q :: rest2)) from rfl]
          rw [ih (List.cons_ne_nil q rest2)
            (fun r hr => hfree r (List.mem_cons_of_mem p hr))]
          simp

/-- A piece free of backslashes passes through the row split unsplit. -/
theorem splitTwoBack_free (piece : List Char) (hp : '\\' ∉ piece) :
    ∀ acc : List Char, splitTwoBack acc piece = [acc.reverse ++ piece] := by
  induction piece with
  | nil => intro acc; simp [splitTwoBack]
  | cons c1 tail ih =>
      intro acc
      have hc1 : c1 ≠ '\\' := fun h => hp (h ▸ List.mem_cons_self c1 tail)
      cases tail with
      | nil => simp [splitTwoBack]
      | cons c2 rest =>
          rw [show splitTwoBack acc (c1 :: c2 :: rest) =
                if c1 = '\\' ∧ c2 = '\\' then
                  acc.reverse :: splitTwoBack [] rest
                else splitTwoBack (c1 :: acc) (c2 :: rest) from rfl,
            if_neg (fun h => hc1 h.1),
            ih (fun h => hp (List.mem_cons_of_mem c1 h)) (c1 :: acc)]
          simp

/-- The row split cuts exactly at a double backslash that follows a
backslash-free piece. -/
theorem splitTwoBack_sep (piece : List Char) (hp : '\\' ∉ piece) :
    ∀ rest acc : List Char,
      splitTwoBack acc (piece ++ '\\' :: '\\' :: rest) =
        (acc.reverse ++ piece) :: splitTwoBack [] rest := by
  induction piece with
  | nil =>
      intro rest acc
      rw [show ([] : List Char) ++ '\\' :: '\\' :: rest =
            '\\' :: '\\' :: rest from rfl,
        show splitTwoBack acc ('\\' :: '\\' :: rest) =
          if ('\\' : Char) = '\\' ∧ ('\\' : Char) = '\\' then
            acc.reverse :: splitTwoBack [] rest
          else splitTwoBack ('\\' :: acc) ('\\' :: rest) from rfl,
        if_pos ⟨rfl, rfl⟩]
      simp
  | cons c1 tail ih =>
      intro rest acc
      have hc1 : c1 ≠ '\\' := fun h => hp (h ▸ List.mem_cons_self c1 tail)
      have htail : '\\' ∉ tail := fun h => hp (List.mem_cons_of_mem c1 h)
      cases tail with
      | nil =>
          rw [show ([c1] : List Char) ++ '\\' :: '\\' :: rest =
                c1 :: '\\' :: '\\' :: rest from rfl,
            show splitTwoBack acc (c1 :: '\\' :: '\\' :: rest) =
              if c1 = '\\' ∧ ('\\' : Char) = '\\' then
                acc.reverse :: splitTwoBack [] ('\\' :: rest)
              else splitTwoBack (c1 :: acc) ('\\' :: '\\' :: rest) from rfl,
            if_neg (fun h => hc1 h.1)]
          rw [show ('\\' : Char) :: '\\' :: rest =
                ([] : List Char) ++ '\\' :: '\\' :: rest from rfl,
            ih htail rest (c1 :: acc)]
          simp
      | cons c2 tail2 =>
          rw [show (c1 :: c2 :: tail2) ++ '\\' :: '\\' :: rest =
                c1 :: c2 :: (tail2 ++ '\\' :: '\\' :: rest) from rfl,
            show splitTwoBack acc
                (c1 :: c2 :: (tail2 ++ '\\' :: '\\' :: rest)) =
              if c1 = '\\' ∧ c2 = '\\' then
                acc.reverse :: splitTwoBack [] (tail2 ++ '\\' :: '\\' :: rest)
              else splitTwoBack (c1 :: acc)
                (c2 :: (tail2 ++ '\\' :: '\\' :: rest)) from rfl,
            if_neg (fun h => hc1 h.1)]
          rw [show c2 :: (tail2 ++ '\\' :: '\\' :: rest) =
                (c2 :: tail2) ++ '\\' :: '\\' :: rest from rfl,
            ih htail rest (c1 :: acc)]
          simp

/-- Splitting on the row delimiter inverts joining with it, for nonempty
piece lists whose pieces contain no backslash. -/
theorem splitOnRow_joinWith :
    ∀ parts : List (List Char), parts ≠ [] → (∀ p ∈ parts, '\\' ∉ p) →
      splitOnRow (joinWith rowDelim parts) = parts := by
  intro parts
  induction parts with
  | nil => intro h; exact absurd rfl h
  | cons p rest ih =>
      intro _ hfree
      cases rest with
      | nil =>
          rw [show joinWith rowDelim [p] = p from rfl]
          unfold splitOnRow
          rw [splitTwoBack_free p (hfree p (List.mem_cons_self p [])) []]
          simp
      | cons q rest2 =>
          have hjoin : joinWith rowDelim (p :: q :: rest2) =
              p ++ '\\' :: '\\' :: joinWith rowDelim (q :: rest2) := by
            rw [show joinWith rowDelim (p :: q :: rest2) =
                  p ++ rowDelim ++ joinWith rowDelim (q :: rest2) from rfl,
              List.append_assoc]
            rfl
          rw [hjoin]
          unfold splitOnRow
          rw [splitTwoBack_sep p (hfree p (List.mem_cons_self p _))
            (joinWith rowDelim (q :: rest2)) []]
          rw [show splitTwoBack [] (joinWith rowDelim (q :: rest2)) =
            splitOnRow (joinWith rowDelim (q :: rest2)) from rfl]
          rw [ih (List.cons_ne_nil q rest2)
            (fun r hr => hfree r (List.mem_cons_of_mem p hr))]
          simp

/-- Membership in a separator-joined list comes from the separator or
from one of the pieces. -/
theorem mem_joinWith (sep : List Char) (c : Char) :
    ∀ parts : List (List Char), c ∈ joinWith sep parts →
      c ∈ sep ∨ ∃ p ∈ parts, c ∈ p := by
  intro parts
  induction parts with
  | nil => intro h; exact absurd h (List.not_mem_nil c)
  | cons p rest ih =>
      intro hc
      cases rest with
      | nil =>
          rw [show joinWith sep [p] = p from rfl] at hc
          exact Or.inr ⟨p, List.mem_cons_self p [], hc⟩
      | cons q rest2 =>
          rw [show joinWith sep (p :: q :: rest2) =
                p ++ sep ++ joinWith sep (q :: rest2) from rfl] at hc
          rcases List.mem_append.mp hc with hc1 | hc2
          · rcases List.mem_append.mp hc1 with hcp | hcs
            · exact Or.inr ⟨p, List.mem_cons_self p _, hcp⟩
            · exact Or.inl hcs
          · rcases ih hc2 with hcs | ⟨r, hr, hcr⟩
            · exact Or.inl hcs
            · exact Or.inr ⟨r, List.mem_cons_of_mem p hr, hcr⟩

/-- No character of the decimal digits is `c` when `c` is not a digit
character. -/
theorem natReprAux_not_mem (c : Char)
    (hdig : ∀ k : Nat, k < 10 → Nat.digitChar k ≠ c) :
    ∀ fuel n : Nat, c ∉ natReprAux fuel n := by
  intro fuel
  induction fuel with
  | zero => intro n; simp [natReprAux]
  | succ f ih =>
      intro n
      by_cases h : n < 10
      · rw [show natReprAux (f + 1) n =
            if n < 10 then [Nat.digitChar n]
            else natReprAux f (n / 10) ++ [Nat.digitChar (n % 10)]
            from rfl, if_pos h]
        simp only [List.mem_singleton]
        exact fun hm => hdig n h hm.symm
      · rw [show natReprAux (f + 1) n =
            if n < 10 then [Nat.digitChar n]
            else natReprAux f (n / 10) ++ [Nat.digitChar (n % 10)]
            from rfl, if_neg h]
        simp only [List.mem_append, List.mem_singleton]
        rintro (hm | hm)
        · exact ih (n / 10) hm
        · exact hdig (n % 10) (Nat.mod_lt n (by omega)) hm.symm

/-- No character of an integer rendering is `c` when `c` is neither a
digit character nor the minus sign. -/
theorem intRepr_not_mem (c : Char)
    (hdig : ∀ k : Nat, k < 10 → Nat.digitChar k ≠ c)
    (hminus : c ≠ '-') (i : Int) : c ∉ intRepr i := by
  unfold intRepr
  by_cases h : i < 0
  · rw [if_pos h]
    simp only [List.mem_cons]
    rintro (hm | hm)
    · exact hminus hm
    · exact natReprAux_not_mem c hdig (i.natAbs + 1) i.natAbs hm
  · rw [if_neg h]
    exact natReprAux_not_mem c hdig (i.natAbs + 1) i.natAbs

/-- As before, additionally ruling out the explicit plus sign. -/
theorem signedIntRepr_not_mem (c : Char)
    (hdig : ∀ k : Nat, k < 10 → Nat.digitChar k ≠ c)
    (hminus : c ≠ '-') (hplus : c ≠ '+') (i : Int) :
    c ∉ signedIntRepr i := by
  unfold signedIntRepr
  by_cases h : i < 0
  · rw [if_pos h]
    exact intRepr_not_mem c hdig hminus i
  · rw [if_neg h]
    simp only [List.mem_cons]
    rintro (hm | hm)
    · exact hplus hm
    · exact intRepr_not_mem c hdig hminus i hm

/-- A rendered complex value uses only digit characters, signs,
parentheses and the letter j. -/
theorem pyComplexStr_not_mem (c : Char)
    (hdig : ∀ k : Nat, k < 10 → Nat.digitChar k ≠ c)
    (hminus : c ≠ '-') (hplus : c ≠ '+') (hj : c ≠ 'j')
    (hlp : c ≠ '(') (hrp : c ≠ ')') (z : PyComplex) :
    c ∉ pyComplexStr z := by
  unfold pyComplexStr
  by_cases h : z.1 = 0
  · rw [if_pos h]
    simp only [List.mem_append, List.mem_singleton]
    rintro (hm | hm)
    · exact intRepr_not_mem c hdig hminus z.2 hm
    · exact hj hm
  · rw [if_neg h]
    simp only [List.mem_cons, List.mem_append, List.mem_singleton]
    rintro (hm | (hm | hm) | hm | hm | hm)
    · exact hlp hm
    · exact intRepr_not_mem c hdig hminus z.1 hm
    · exact signedIntRepr_not_mem c hdig hminus hplus z.2 hm
    · exact hj hm
    · exact hrp hm
    · exact absurd hm (List.not_mem_nil c)

/-- The rendering of a complex value contains neither the column
delimiter character nor a backslash. -/
theorem pyComplexStr_free (z : PyComplex) :
    '&' ∉ pyComplexStr z ∧ '\\' ∉ pyComplexStr z :=
  ⟨pyComplexStr_not_mem '&' (by decide) (by decide) (by decide) (by decide)
      (by decide) (by decide) z,
    pyComplexStr_not_mem '\\' (by decide) (by decide) (by decide) (by decide)
      (by decide) (by decide) z⟩

/-- A rendered row contains no backslash, so the row split cannot cut
inside it. -/
theorem rowString_bs_free (row : List PyComplex) :
    '\\' ∉ rowString pyComplexStr row := by
  intro hm
  rcases mem_joinWith colDelim '\\' (row.map pyComplexStr) hm with
    hs | ⟨p, hp, hcp⟩
  · exact absurd hs (by decide)
  · rcases List.mem_map.mp hp with ⟨z, _, rfl⟩
    exact (pyComplexStr_free z).2 hcp

/-- Splitting the body on the row delimiter recovers the rendered rows. -/
theorem splitRows_renderedBody (gate : ComplexMatrix) (h1 : gate ≠ []) :
    splitOnRow (renderedBody pyComplexStr gate) =
      gate.map (rowString pyComplexStr) := by
  unfold renderedBody
  apply splitOnRow_joinWith
  · exact fun h => h1 (List.map_eq_nil_iff.mp h)
  · intro p hp
    rcases List.mem_map.mp hp with ⟨row, _, rfl⟩
    exact rowString_bs_free row

/-- Splitting a rendered nonempty row on the column delimiter recovers
the rendered entries. -/
theorem splitOnCol_rowString (row : List PyComplex) (h : row ≠ []) :
    splitOnCol (rowString pyComplexStr row) = row.map pyComplexStr := by
  unfold rowString
  apply splitOnCol_joinWith
  · exact fun hm => h (List.map_eq_nil_iff.mp hm)
  · intro p hp
    rcases List.mem_map.mp hp with ⟨z, _, rfl⟩
    exact (pyComplexStr_free z).1

/-- Parsing the body back (row split, then column split) recovers the
matrix of rendered entries. -/
theorem parse_roundtrip (gate : ComplexMatrix) (h1 : gate ≠ [])
    (h2 : ∀ row ∈ gate, row ≠ []) :
    (splitOnRow (renderedBody pyComplexStr gate)).map splitOnCol =
      gate.map (fun row => row.map pyComplexStr) := by
  rw [splitRows_renderedBody gate h1, List.map_map]
  apply List.map_congr_left
  intro row hrow
  exact splitOnCol_rowString row (h2 row hrow)

/-- A rectangular matrix of rendered entries flattens to rows times
columns entries. -/
theorem map_render_flatten_length (gate : ComplexMatrix) (n : Nat)
    (hrect : ∀ row ∈ gate, row.length = n) :
    (gate.map (fun row => row.map pyComplexStr)).flatten.length =
      gate.length * n := by
  induction gate with
  | nil => simp
  | cons row rest ih =>
      simp only [List.map_cons, List.flatten_cons, List.length_append,
        List.length_map, List.length_cons]
      rw [hrect row (List.mem_cons_self row rest),
        ih (fun r hr => hrect r (List.mem_cons_of_mem row hr))]
      ring

/-- One outer-loop iteration is insensitive to pre-rendering the line. -/
theorem lineStep_map (render : α → List Char) (acc : List Char)
    (row : List α) :
    lineStep id acc (row.map render) = lineStep render acc row := by
  unfold lineStep
  rw [List.foldl_map]
  rfl

/-- The output is a function of the rendered entries alone. -/
theorem gate_latex_eq_rendered (render : α → List Char)
    (gate : List (List α)) :
    gate_latex render gate =
      gateLatexRendered (gate.map (List.map render)) := by
  unfold gate_latex gateLatexRendered
  rw [List.foldl_map]
  simp only [lineStep_map]

/-- C1, counterexample: the claim quantifies over every rectangular
matrix, but for the rectangular 2-by-0 matrix the output does not even
start with the fixed opening marker (the per-row trim of the loop removes
the final character of the marker), so the prescribed strip-and-split
parse cannot yield the claimed 0 entries. -/
theorem claim_c1_counterexample :
    (gate_latex pyComplexStr [[], []]).take beginPmatrix.length ≠
      beginPmatrix := by decide

/-- C1, amended: for every rectangular matrix with at least one row and
at least one column, stripping the markers and splitting on the row and
then the column delimiter yields exactly rows times columns entries in
row-major order, the entry at position i j being the rendering of the
input value at i j. -/
theorem claim_c1_roundtrip (gate : ComplexMatrix) (n : Nat) (hn : 0 < n)
    (h1 : gate ≠ []) (hrect : ∀ row ∈ gate, row.length = n) :
    ∃ body, gate_latex pyComplexStr gate =
        beginPmatrix ++ body ++ endPmatrix ∧
      (splitOnRow body).map splitOnCol =
        gate.map (fun row => row.map pyComplexStr) ∧
      ((splitOnRow body).map splitOnCol).flatten.length =
        gate.length * n := by
  have h2 : ∀ row ∈ gate, row ≠ [] := by
    intro row hr
    have := hrect row hr
    exact List.ne_nil_of_length_pos (by omega)
  refine ⟨renderedBody pyComplexStr gate,
    gateLatexStructure pyComplexStr gate h1 h2,
    parse_roundtrip gate h1 h2, ?_⟩
  rw [parse_roundtrip gate h1 h2]
  exact map_render_flatten_length gate n hrect

theorem claim_c1_witness :
    ∃ body, gate_latex pyComplexStr [[(1, 0), (2, 0)], [(3, 0), (4, 0)]] =
        beginPmatrix ++ body ++ endPmatrix ∧
      (splitOnRow body).map splitOnCol =
        ([[(1, 0), (2, 0)], [(3, 0), (4, 0)]] : ComplexMatrix).map
          (fun row => row.map pyComplexStr) ∧
      ((splitOnRow body).map splitOnCol).flatten.length = 2 * 2 :=
  claim_c1_roundtrip [[(1, 0), (2, 0)], [(3, 0), (4, 0)]] 2 (by decide)
    (by decide) (by decide)

/-- C2, counterexample: the source performs no shape validation: on the
ragged input with rows of lengths 1 and 2 it raises nothing and returns
the complete formatted string, so no InvalidShapeError is surfaced. -/
theorem claim_c2_counterexample :
    gate_latex pyComplexStr [[(1, 0)], [(1, 0), (1, 0)]] =
      beginPmatrix ++ (pyComplexStr (1, 0) ++ '\\' :: '\\' ::
        (pyComplexStr (1, 0) ++ '&' :: pyComplexStr (1, 0))) ++
        endPmatrix := by decide

/-- C2, amended: a non-rectangular input is not rejected: the output is
a complete marker-wrapped string in which row i contributes exactly the
length of row i entries. -/
theorem claim_c2_no_shape_error (gate : ComplexMatrix) (h1 : gate ≠ [])
    (h2 : ∀ row ∈ gate, row ≠ []) :
    ∃ body, gate_latex pyComplexStr gate =
        beginPmatrix ++ body ++ endPmatrix ∧
      (splitOnRow body).map (fun r => (splitOnCol r).length) =
        gate.map List.length := by
  refine ⟨renderedBody pyComplexStr gate,
    gateLatexStructure pyComplexStr gate h1 h2, ?_⟩
  rw [splitRows_renderedBody gate h1, List.map_map]
  apply List.map_congr_left
  intro row hrow
  rw [Function.comp_apply, splitOnCol_rowString row (h2 row hrow),
    List.length_map]

theorem claim_c2_witness :
    ∃ body, gate_latex pyComplexStr [[(2, 0)], [(2, 0), (3, 0)]] =
        beginPmatrix ++ body ++ endPmatrix ∧
      (splitOnRow body).map (fun r => (splitOnCol r).length) =
        ([[(2, 0)], [(2, 0), (3, 0)]] : ComplexMatrix).map List.length :=
  claim_c2_no_shape_error [[(2, 0)], [(2, 0), (3, 0)]] (by decide)
    (by decide)

/-- C3, counterexample: on the empty matrix the output is not the
opening marker followed by the closing marker: the unconditional final
trim has removed two characters of the opening marker. -/
theorem claim_c3_counterexample :
    gate_latex pyComplexStr [] ≠ beginPmatrix ++ endPmatrix := by decide

/-- C3, amended: degenerate matrices corrupt the opening marker instead
of producing the two bare markers: zero rows lose the final two marker
characters; one row of zero columns loses the final marker character;
two rows of zero columns lose it and gain a stray backslash. -/
theorem claim_c3_degenerate :
    gate_latex pyComplexStr [] =
        beginPmatrix.dropLast.dropLast ++ endPmatrix ∧
      gate_latex pyComplexStr [[]] = beginPmatrix.dropLast ++ endPmatrix ∧
      gate_latex pyComplexStr [[], []] =
        beginPmatrix.dropLast ++ '\\' :: endPmatrix := by decide

/-- C4, counterexample: the empty matrix is rectangular, yet the output
on it does not start with the fixed opening marker. -/
theorem claim_c4_counterexample :
    (gate_latex pyComplexStr []).take beginPmatrix.length ≠
      beginPmatrix := by decide

/-- C4, amended: for every matrix with at least one row, all rows
nonempty (in particular every rectangular matrix with at least one row
and one column), the output starts with the fixed opening marker and
ends with the fixed closing marker. -/
theorem claim_c4_markers (gate : ComplexMatrix) (h1 : gate ≠ [])
    (h2 : ∀ row ∈ gate, row ≠ []) :
    ∃ mid, gate_latex pyComplexStr gate =
      beginPmatrix ++ mid ++ endPmatrix :=
  ⟨renderedBody pyComplexStr gate,
    gateLatexStructure pyComplexStr gate h1 h2⟩

theorem claim_c4_witness :
    ∃ mid, gate_latex pyComplexStr [[(3, 0)]] =
      beginPmatrix ++ mid ++ endPmatrix :=
  claim_c4_markers [[(3, 0)]] (by decide) (by decide)

/-- C5: for a rectangular matrix with at least one row and at least one
column, the body carries exactly rows minus one occurrences of the row
delimiter, and each rendered row carries exactly columns minus one
occurrences of the column delimiter. -/
theorem claim_c5_delim_counts (gate : ComplexMatrix) (n : Nat) (hn : 0 < n)
    (h1 : gate ≠ []) (hrect : ∀ row ∈ gate, row.length = n) :
    ∃ body, gate_latex pyComplexStr gate =
        beginPmatrix ++ body ++ endPmatrix ∧
      rowDelimCount body = gate.length - 1 ∧
      ∀ r ∈ splitOnRow body, colDelimCount r = n - 1 := by
  have h2 : ∀ row ∈ gate, row ≠ [] := by
    intro row hr
    have := hrect row hr
    exact List.ne_nil_of_length_pos (by omega)
  refine ⟨renderedBody pyComplexStr gate,
    gateLatexStructure pyComplexStr gate h1 h2, ?_, ?_⟩
  · unfold rowDelimCount
    rw [splitRows_renderedBody gate h1, List.length_map]
  · intro r hr
    rw [splitRows_renderedBody gate h1] at hr
    rcases List.mem_map.mp hr with ⟨row, hrow, rfl⟩
    unfold colDelimCount
    rw [splitOnCol_rowString row (h2 row hrow), List.length_map,
      hrect row hrow]

theorem claim_c5_witness :
    ∃ body, gate_latex pyComplexStr [[(5, 0)], [(6, 0)]] =
        beginPmatrix ++ body ++ endPmatrix ∧
      rowDelimCount body = 2 - 1 ∧
      ∀ r ∈ splitOnRow body, colDelimCount r = 1 - 1 :=
  claim_c5_delim_counts [[(5, 0)], [(6, 0)]] 1 (by decide) (by decide)
    (by decide)

/-- C6: on the tensor-product matrix the output is exactly the string
the notebook records, and parsing the body back yields the renderings of
the input values in row-major order. -/
theorem claim_c6_tensor :
    gate_latex pyComplexStr zxMatrix =
        ("\\begin{pmatrix}0j&(1+0j)&0j&0j\\\\(1+0j)&0j&0j&0j\\\\0j&0j&0j&(-1+0j)\\\\0j&0j&(-1+0j)&0j\\end{pmatrix}").data ∧
      gate_latex pyComplexStr zxMatrix =
        beginPmatrix ++ renderedBody pyComplexStr zxMatrix ++ endPmatrix ∧
      (splitOnRow (renderedBody pyComplexStr zxMatrix)).map splitOnCol =
        zxMatrix.map (fun row => row.map pyComplexStr) := by
  exact ⟨by decide, by decide, by decide⟩

/-- C7: the one-by-one matrix holding 1 is rendered as the single entry
wrapped in the two markers, with no delimiter. -/
theorem claim_c7_single :
    gate_latex pyComplexStr [[(1, 0)]] =
      ("\\begin{pmatrix}(1+0j)\\end{pmatrix}").data := by decide

/-- C8: the computation is a pure function of its input: the embedding
performs only local string concatenation, and the output depends on
nothing but the rendered entries, so any two invocations on entrywise
equally rendered matrices return equal strings. -/
theorem claim_c8_pure (render1 : α → List Char) (render2 : β → List Char)
    (gate1 : List (List α)) (gate2 : List (List β))
    (h : gate1.map (List.map render1) = gate2.map (List.map render2)) :
    gate_latex render1 gate1 = gate_latex render2 gate2 := by
  rw [gate_latex_eq_rendered render1 gate1,
    gate_latex_eq_rendered render2 gate2, h]

theorem claim_c8_witness :
    gate_latex pyComplexStr [[(1, 0)]] =
      gate_latex id [[pyComplexStr (1, 0)]] :=
  claim_c8_pure pyComplexStr id [[(1, 0)]] [[pyComplexStr (1, 0)]]
    (by decide)

/-- C9, counterexample: the claim covers every ragged input, but it is
false when a zero-length row occurs.  On the ragged input whose rows
have lengths 1 and 0, the trim of the empty row eats one backslash of
the preceding row delimiter: the body is the single entry followed by
one stray backslash, it contains no complete row delimiter, and the row
split yields one piece instead of one per input row, so the empty row
does not contribute a zero-entry delimited slot. -/
theorem claim_c9_counterexample :
    gate_latex pyComplexStr [[(1, 0)], []] =
        beginPmatrix ++ (pyComplexStr (1, 0) ++ ['\\']) ++ endPmatrix ∧
      (splitOnRow (pyComplexStr (1, 0) ++ ['\\'])).length ≠ 2 := by decide

/-- C9, amended: the source is total on every finite list of finite
rows, rectangular or not: with no shape validation it returns the
marker-wrapped join of the rows, each row contributing its own number of
entries joined by the column delimiter, provided every row is nonempty
(a zero-length row instead triggers the trimming corruption shown in the
counterexample, of the kind recorded for C10). -/
theorem claim_c9_total (render : α → List Char) (gate : List (List α))
    (h1 : gate ≠ []) (h2 : ∀ row ∈ gate, row ≠ []) :
    gate_latex render gate =
      beginPmatrix ++
        joinWith rowDelim (gate.map (rowString render)) ++ endPmatrix :=
  gateLatexStructure render gate h1 h2

theorem claim_c9_witness :
    gate_latex pyComplexStr [[(7, 0), (8, 0)], [(9, 0)]] =
      beginPmatrix ++
        joinWith rowDelim
          (([[(7, 0), (8, 0)], [(9, 0)]] : ComplexMatrix).map
            (rowString pyComplexStr)) ++ endPmatrix :=
  claim_c9_total pyComplexStr [[(7, 0), (8, 0)], [(9, 0)]] (by decide)
    (by decide)

/-- C10: on a matrix with zero rows no row delimiter is ever appended,
so the unconditional final two-character trim removes the last two
characters of the opening marker: the output is the opening marker
without its final two characters, followed by the closing marker. -/
theorem claim_c10_empty_trim :
    gate_latex pyComplexStr [] =
      beginPmatrix.dropLast.dropLast ++ endPmatrix := by decide
